import Mathlib

/-!
Verification of the peer-to-peer weight-exchange and aggregation subsystem
of a federated-learning demo repository.

The data model is a `ParameterSet`: an ordered association list from layer
name to a numeric array.  Arrays are modelled as lists of rationals, the
exact counterpart of the code's numeric tensors.  The aggregation operator
`average_weights` is a direct embedding of `aggregator/aggregate.py`; the
transport and codec functions embed `node/peer.py`.
-/

namespace P2P

/-- A `ParameterSet`: ordered mapping from layer name to a numeric array,
the value exchanged between peers (a Python dict of tensors; insertion
order preserved, as in Python). -/
abbrev ParameterSet := List (String × List ℚ)

/-- The keys of a `ParameterSet`, in order. -/
def keysOf (p : ParameterSet) : List String := p.map Prod.fst

/-- Python dict lookup `p[k]`: the value at the first entry with key `k`,
`none` when `k` is absent (a `KeyError` in the code). -/
def lookup (p : ParameterSet) (k : String) : Option (List ℚ) :=
  (p.find? (fun kv => kv.1 == k)).map (fun kv => kv.2)

/-- Elementwise tensor addition `a + b` as performed by `+=` on tensors;
fails (`none`) when the shapes differ (a runtime error in the code). -/
def addVec (a b : List ℚ) : Option (List ℚ) :=
  if a.length = b.length then some (List.zipWith (fun x y => x + y) a b) else none

/-- The inner loop of `average_weights`: starting from the deep copy's value
`acc` for key `k`, add `local_weights[i][k]` for each remaining set, in
order.  `none` models the `KeyError` / shape error the code would raise. -/
def sumKey (rest : List ParameterSet) (k : String) (acc : List ℚ) : Option (List ℚ) :=
  match rest with
  | [] => some acc
  | s :: ss =>
    match lookup s k with
    | none => none
    | some w =>
      match addVec acc w with
      | none => none
      | some acc2 => sumKey ss k acc2

/-- Per-key body of `average_weights`: sum the key's value across all sets
starting from the first set's value, then divide by the number of sets
(`torch.div(avg_weights[key], len(local_weights))`). -/
def avgEntry (rest : List ParameterSet) (n : ℕ) (kv : String × List ℚ) :
    Option (String × List ℚ) :=
  match sumKey rest kv.1 kv.2 with
  | none => none
  | some s => some (kv.1, s.map (fun x => x / (n : ℚ)))

/-- Traverse a list with a fallible function, failing as soon as one
element fails (the behaviour of a Python `for` loop whose body raises). -/
def mapO {α β : Type} (f : α → Option β) : List α → Option (List β)
  | [] => some []
  | a :: t =>
    match f a with
    | none => none
    | some b =>
      match mapO f t with
      | none => none
      | some bs => some (b :: bs)

/-- Embedding of `average_weights` from `aggregator/aggregate.py`:
deep-copy `local_weights[0]`, then for each key of that copy, in the
copy's order, add every later set's value and divide by the number of
sets.  `none` models an uncaught exception (empty input, missing key,
shape error); the result otherwise has exactly the first set's keys. -/
def average_weights (local_weights : List ParameterSet) : Option ParameterSet :=
  match local_weights with
  | [] => none
  | first :: rest => mapO (avgEntry rest (first :: rest).length) first

/-! ### Basic lemmas about lookup and keys -/

theorem lookup_eq_none_iff (p : ParameterSet) (k : String) :
    lookup p k = none ↔ k ∉ keysOf p := by
  simp only [lookup, keysOf, Option.map_eq_none', List.find?_eq_none, beq_iff_eq,
    List.mem_map, not_exists]
  tauto

theorem lookup_isSome_of_mem_keys {p : ParameterSet} {k : String}
    (h : k ∈ keysOf p) : ∃ v, lookup p k = some v := by
  cases hl : lookup p k with
  | none => exact absurd ((lookup_eq_none_iff p k).mp hl) (by simp [h])
  | some v => exact ⟨v, rfl⟩

theorem mem_keys_of_lookup {p : ParameterSet} {k : String} {v : List ℚ}
    (h : lookup p k = some v) : k ∈ keysOf p := by
  by_contra hk
  rw [← lookup_eq_none_iff p k] at hk
  simp [hk] at h

/-- With no duplicate keys, membership of an entry determines the lookup. -/
theorem lookup_eq_of_mem {p : ParameterSet} {k : String} {v : List ℚ}
    (hnd : (keysOf p).Nodup) (hm : (k, v) ∈ p) : lookup p k = some v := by
  induction p with
  | nil => cases hm
  | cons kv rest ih =>
    rcases List.mem_cons.mp hm with heq | hmem
    · subst heq
      simp [lookup]
    · have hnd' : (keysOf rest).Nodup := (List.nodup_cons.mp hnd).2
      have hk : k ∈ keysOf rest := List.mem_map.mpr ⟨(k, v), hmem, rfl⟩
      have hne : kv.1 ≠ k := by
        intro hkv
        exact absurd (hkv ▸ hk) (List.nodup_cons.mp hnd).1
      have : (kv.1 == k) = false := beq_eq_false_iff_ne.mpr hne
      simp only [lookup, List.find?_cons, this]
      exact ih hnd' hmem

/-! ### Lemmas about the fallible traversal -/

theorem mapO_eq_map {α β : Type} (f : α → Option β) (g : α → β) :
    ∀ (l : List α), (∀ a ∈ l, f a = some (g a)) → mapO f l = some (l.map g) := by
  intro l
  induction l with
  | nil => intro _; rfl
  | cons a t ih =>
    intro h
    have ha : f a = some (g a) := h a (List.mem_cons_self a t)
    have ht := ih (fun b hb => h b (List.mem_cons_of_mem a hb))
    simp [mapO, ha, ht]

theorem mapO_eq_none {α β : Type} (f : α → Option β) {a : α} :
    ∀ (l : List α), a ∈ l → f a = none → mapO f l = none := by
  intro l
  induction l with
  | nil => intro h; cases h
  | cons b t ih =>
    intro hm hf
    rcases List.mem_cons.mp hm with heq | hmem
    · subst heq
      simp [mapO, hf]
    · cases hb : f b with
      | none => simp [mapO, hb]
      | some y => simp [mapO, hb, ih hmem hf]

/-! ### Elementwise arithmetic helpers -/

theorem map_div_one (v : List ℚ) : v.map (fun x => x / (1 : ℚ)) = v := by
  induction v with
  | nil => rfl
  | cons x t ih => simp [ih]

theorem map_add_self_half (v : List ℚ) :
    v.map ((fun x => x / (2 : ℚ)) ∘ fun a => a + a) = v := by
  induction v with
  | nil => rfl
  | cons x t ih =>
    simp only [List.map_cons, ih, Function.comp_apply, List.cons.injEq, and_true]
    ring

theorem avgEntry_nil_one (kv : String × List ℚ) :
    avgEntry [] 1 kv = some kv := by
  simp [avgEntry, sumKey, Nat.cast_one, map_div_one]

theorem avgEntry_self_two {p : ParameterSet} (hnd : (keysOf p).Nodup)
    {kv : String × List ℚ} (hm : kv ∈ p) : avgEntry [p] 2 kv = some kv := by
  have hl : lookup p kv.1 = some kv.2 := lookup_eq_of_mem hnd hm
  have hadd : addVec kv.2 kv.2 = some (List.zipWith (fun x y => x + y) kv.2 kv.2) := by
    simp [addVec]
  simp [avgEntry, sumKey, hl, hadd, map_add_self_half]

/-- C7: averaging a single set is the identity, and averaging a set with
itself is a no-op. -/
theorem average_weights_single_and_self (p : ParameterSet)
    (hnd : (keysOf p).Nodup) :
    average_weights [p] = some p ∧ average_weights [p, p] = some p := by
  constructor
  · have h := mapO_eq_map (avgEntry [] 1) id p (fun kv _ => avgEntry_nil_one kv)
    simpa [average_weights, List.map_id] using h
  · have h := mapO_eq_map (avgEntry [p] 2) id p
      (fun kv hkv => avgEntry_self_two hnd hkv)
    simpa [average_weights, List.map_id] using h

/-- Witness for C7 at the concrete set `{"w1": [1, 2]}`. -/
theorem average_weights_single_and_self_witness :
    average_weights [[(("w1" : String), [(1 : ℚ), 2])]] = some [(("w1" : String), [(1 : ℚ), 2])] ∧
    average_weights [[(("w1" : String), [(1 : ℚ), 2])], [(("w1" : String), [(1 : ℚ), 2])]] =
      some [(("w1" : String), [(1 : ℚ), 2])] :=
  average_weights_single_and_self [(("w1" : String), [(1 : ℚ), 2])] (by decide)

/-! ### Pointwise view of arrays and the summation loop -/

/-- The value of `p` at key `k`, defaulting to the empty array. -/
def valAt (p : ParameterSet) (k : String) : List ℚ := (lookup p k).getD []

/-- The `j`-th element of an array, defaulting to `0`. -/
def entryAt (v : List ℚ) (j : ℕ) : ℚ := v.getD j 0

/-- The sum, over a list of parameter sets, of the `j`-th element of each
set's value at key `k`. -/
def sumAt (sets : List ParameterSet) (k : String) (j : ℕ) : ℚ :=
  (sets.map (fun s => entryAt (valAt s k) j)).sum

theorem entryAt_zipWith : ∀ (a b : List ℚ) (j : ℕ), j < a.length → j < b.length →
    entryAt (List.zipWith (fun x y => x + y) a b) j = entryAt a j + entryAt b j := by
  intro a
  induction a with
  | nil => intro b j h; cases h
  | cons x t ih =>
    intro b j hja hjb
    cases b with
    | nil => cases hjb
    | cons y u =>
      cases j with
      | zero => simp [entryAt]
      | succ m =>
        simp only [List.zipWith_cons_cons, entryAt, List.getD_cons_succ]
        exact ih u m (Nat.lt_of_succ_lt_succ hja) (Nat.lt_of_succ_lt_succ hjb)

theorem entryAt_map_div : ∀ (t : List ℚ) (c : ℚ) (j : ℕ), j < t.length →
    entryAt (t.map (fun x => x / c)) j = entryAt t j / c := by
  intro t
  induction t with
  | nil => intro c j h; cases h
  | cons x u ih =>
    intro c j hj
    cases j with
    | zero => simp [entryAt]
    | succ m =>
      simp only [List.map_cons, entryAt, List.getD_cons_succ]
      exact ih c m (Nat.lt_of_succ_lt_succ hj)

theorem eq_of_entryAt_eq : ∀ (x y : List ℚ), x.length = y.length →
    (∀ j, j < x.length → entryAt x j = entryAt y j) → x = y := by
  intro x
  induction x with
  | nil =>
    intro y hlen _
    exact (List.eq_nil_of_length_eq_zero hlen.symm).symm
  | cons a t ih =>
    intro y hlen h
    cases y with
    | nil => cases hlen
    | cons b u =>
      have h0 := h 0 (Nat.succ_pos _)
      simp only [entryAt, List.getD_cons_zero] at h0
      have ht : t = u := by
        refine ih u (Nat.succ_injective hlen) (fun j hj => ?_)
        have := h (j + 1) (Nat.succ_lt_succ hj)
        simpa [entryAt, List.getD_cons_succ] using this
      rw [h0, ht]

/-- The summation loop of `average_weights`, characterised pointwise: when
every later set has key `k` with an array of the accumulator's length, the
loop succeeds and produces, at each index, the accumulator's element plus
the sum of the later sets' elements. -/
theorem sumKey_spec : ∀ (rest : List ParameterSet) (k : String) (acc : List ℚ),
    (∀ s ∈ rest, ∃ w, lookup s k = some w ∧ w.length = acc.length) →
    ∃ t, sumKey rest k acc = some t ∧ t.length = acc.length ∧
      ∀ j, j < acc.length →
        entryAt t j = entryAt acc j + (rest.map (fun s => entryAt (valAt s k) j)).sum := by
  intro rest
  induction rest with
  | nil =>
    intro k acc _
    exact ⟨acc, rfl, rfl, fun j _ => by simp⟩
  | cons s ss ih =>
    intro k acc h
    obtain ⟨w, hw, hwlen⟩ := h s (List.mem_cons_self s ss)
    have hadd : addVec acc w = some (List.zipWith (fun x y => x + y) acc w) := by
      simp [addVec, hwlen.symm]
    set acc2 := List.zipWith (fun x y => x + y) acc w with hacc2
    have hlen2 : acc2.length = acc.length := by
      simp [hacc2, List.length_zipWith, hwlen]
    obtain ⟨t, ht, htlen, hte⟩ := ih k acc2
      (fun s' hs' => by
        obtain ⟨w', hw', hwlen'⟩ := h s' (List.mem_cons_of_mem s hs')
        exact ⟨w', hw', by rw [hwlen', hlen2]⟩)
    refine ⟨t, ?_, by rw [htlen, hlen2], ?_⟩
    · simp [sumKey, hw, hadd, ht]
    · intro j hj
      have hjw : j < w.length := hwlen ▸ hj
      have hj2 : j < acc2.length := hlen2 ▸ hj
      have := hte j hj2
      rw [this, hacc2, entryAt_zipWith acc w j hj hjw]
      have hvw : valAt s k = w := by simp [valAt, hw]
      simp [hvw]
      ring

theorem lookup_singleton (kv : String × List ℚ) (k : String) :
    lookup [kv] k = if kv.1 = k then some kv.2 else none := by
  by_cases h : kv.1 = k <;> simp [lookup, List.find?_cons, h]

theorem lookup_map_keyfun (g : (String × List ℚ) → String × List ℚ)
    (hg : ∀ kv, (g kv).1 = kv.1) :
    ∀ (p : ParameterSet) (k : String),
      lookup (p.map g) k = (p.find? (fun kv => kv.1 == k)).map (fun kv => (g kv).2) := by
  intro p
  induction p with
  | nil => intro k; rfl
  | cons kv t ih =>
    intro k
    cases hbe : (kv.1 == k) with
    | true =>
      simp only [List.map_cons, lookup, List.find?_cons, hg kv, hbe]
      rfl
    | false =>
      simp only [List.map_cons, lookup, List.find?_cons, hg kv, hbe]
      exact ih k

/-- C2: for a non-empty input whose later sets all carry the first set's
keys with matching shapes, `average_weights` succeeds and returns, for
each key, the elementwise arithmetic mean across all the sets. -/
theorem average_weights_mean (first : ParameterSet) (rest : List ParameterSet)
    (hnd : (keysOf first).Nodup)
    (hcomp : ∀ s ∈ rest, ∀ k v, lookup first k = some v →
      ∃ w, lookup s k = some w ∧ w.length = v.length) :
    ∃ r, average_weights (first :: rest) = some r ∧
      keysOf r = keysOf first ∧
      ∀ k v, lookup first k = some v →
        ∃ u, lookup r k = some u ∧ u.length = v.length ∧
          ∀ j, j < v.length →
            entryAt u j = sumAt (first :: rest) k j / (((first :: rest).length : ℕ) : ℚ) := by
  set n := (first :: rest).length with hn
  set g : (String × List ℚ) → String × List ℚ :=
    fun kv => (kv.1, ((sumKey rest kv.1 kv.2).getD []).map (fun x => x / (n : ℚ))) with hgdef
  have hg1 : ∀ kv, (g kv).1 = kv.1 := fun kv => rfl
  have hsum : ∀ kv ∈ first, ∃ t, sumKey rest kv.1 kv.2 = some t ∧
      t.length = kv.2.length ∧
      ∀ j, j < kv.2.length →
        entryAt t j = entryAt kv.2 j + (rest.map (fun s => entryAt (valAt s kv.1) j)).sum := by
    intro kv hkv
    exact sumKey_spec rest kv.1 kv.2
      (fun s hs => hcomp s hs kv.1 kv.2 (lookup_eq_of_mem hnd hkv))
  have hentry : ∀ kv ∈ first, avgEntry rest n kv = some (g kv) := by
    intro kv hkv
    obtain ⟨t, ht, _, _⟩ := hsum kv hkv
    simp [avgEntry, ht, hgdef]
  have hmap : average_weights (first :: rest) = some (first.map g) := by
    simpa [average_weights, hn] using mapO_eq_map (avgEntry rest n) g first hentry
  refine ⟨first.map g, hmap, ?_, ?_⟩
  · simp [keysOf, List.map_map]
  · intro k v hkv
    have hfind : ∃ kv0, first.find? (fun kv => kv.1 == k) = some kv0 ∧
        kv0.1 = k ∧ kv0.2 = v ∧ kv0 ∈ first := by
      cases hf : first.find? (fun kv => kv.1 == k) with
      | none => simp [lookup, hf] at hkv
      | some kv0 =>
        have h2 : kv0.2 = v := by simpa [lookup, hf] using hkv
        have h1 : kv0.1 = k := by
          have := List.find?_some hf
          exact beq_iff_eq.mp this
        exact ⟨kv0, rfl, h1, h2, List.mem_of_find?_eq_some hf⟩
    obtain ⟨kv0, hf, hk0, hv0, hm0⟩ := hfind
    obtain ⟨t, ht, htlen, hte⟩ := hsum kv0 hm0
    refine ⟨(g kv0).2, ?_, ?_, ?_⟩
    · rw [lookup_map_keyfun g hg1 first k, hf]
      rfl
    · have hgt : (g kv0).2 = t.map (fun x => x / (n : ℚ)) := by simp [hgdef, ht]
      rw [hgt, List.length_map, htlen, hv0]
    · intro j hj
      have hjv : j < kv0.2.length := hv0 ▸ hj
      have hjt : j < t.length := htlen ▸ hjv
      have hu : (g kv0).2 = t.map (fun x => x / (n : ℚ)) := by simp [hgdef, ht]
      rw [hu, entryAt_map_div t (n : ℚ) j hjt, hte j hjv]
      have hval : valAt first k = v := by simp [valAt, hkv]
      simp only [sumAt, List.map_cons, List.sum_cons, hval, hk0, hv0]

/-- Witness for C2 at the spec's two-node scenario:
`average([{"w1": [1, 2]}, {"w1": [3, 4]}])` is the elementwise mean,
concretely `{"w1": [2, 3]}`. -/
theorem average_weights_mean_witness :
    (∃ r, average_weights [[(("w1" : String), [(1 : ℚ), 2])], [(("w1" : String), [(3 : ℚ), 4])]] = some r ∧
      keysOf r = keysOf [(("w1" : String), [(1 : ℚ), 2])] ∧
      ∀ k v, lookup [(("w1" : String), [(1 : ℚ), 2])] k = some v →
        ∃ u, lookup r k = some u ∧ u.length = v.length ∧
          ∀ j, j < v.length →
            entryAt u j =
              sumAt [[(("w1" : String), [(1 : ℚ), 2])], [(("w1" : String), [(3 : ℚ), 4])]] k j /
              ((([[(("w1" : String), [(1 : ℚ), 2])], [(("w1" : String), [(3 : ℚ), 4])]].length : ℕ)) : ℚ)) ∧
    average_weights [[(("w1" : String), [(1 : ℚ), 2])], [(("w1" : String), [(3 : ℚ), 4])]] =
      some [(("w1" : String), [(2 : ℚ), 3])] := by
  constructor
  · refine average_weights_mean [(("w1" : String), [(1 : ℚ), 2])]
      [[(("w1" : String), [(3 : ℚ), 4])]] (by decide) ?_
    intro s hs k v hkv
    have hsb : s = [(("w1" : String), [(3 : ℚ), 4])] := by simpa using hs
    subst hsb
    rw [lookup_singleton] at hkv
    by_cases hk : ("w1" : String) = k
    · refine ⟨[(3 : ℚ), 4], ?_, ?_⟩
      · rw [lookup_singleton]
        simp [hk]
      · have hv : v = [(1 : ℚ), 2] := by
          rw [if_pos hk] at hkv
          exact (Option.some.inj hkv).symm
        rw [hv]
        rfl
    · rw [if_neg hk] at hkv
      cases hkv
  · norm_num [average_weights, mapO, avgEntry, sumKey, lookup, addVec, List.find?]

/-- C6: averaging two compatible sets is order-insensitive; the two
results are equal as maps (Python dict equality). -/
theorem average_weights_comm (a b : ParameterSet)
    (hna : (keysOf a).Nodup) (hnb : (keysOf b).Nodup)
    (hkeys : ∀ k, k ∈ keysOf a ↔ k ∈ keysOf b)
    (hshape : ∀ k v w, lookup a k = some v → lookup b k = some w →
      v.length = w.length) :
    ∃ r s, average_weights [a, b] = some r ∧ average_weights [b, a] = some s ∧
      ∀ k, lookup r k = lookup s k := by
  have hcab : ∀ s ∈ [b], ∀ k v, lookup a k = some v →
      ∃ w, lookup s k = some w ∧ w.length = v.length := by
    intro s hs k v hkv
    have hsb : s = b := by simpa using hs
    subst hsb
    obtain ⟨w, hw⟩ := lookup_isSome_of_mem_keys ((hkeys k).mp (mem_keys_of_lookup hkv))
    exact ⟨w, hw, (hshape k v w hkv hw).symm⟩
  have hcba : ∀ s ∈ [a], ∀ k w, lookup b k = some w →
      ∃ v, lookup s k = some v ∧ v.length = w.length := by
    intro s hs k w hkw
    have hsa : s = a := by simpa using hs
    subst hsa
    obtain ⟨v, hv⟩ := lookup_isSome_of_mem_keys ((hkeys k).mpr (mem_keys_of_lookup hkw))
    exact ⟨v, hv, hshape k v w hv hkw⟩
  obtain ⟨r, hr, hrk, hrv⟩ := average_weights_mean a [b] hna hcab
  obtain ⟨s, hs, hsk, hsv⟩ := average_weights_mean b [a] hnb hcba
  refine ⟨r, s, hr, hs, ?_⟩
  intro k
  by_cases hk : k ∈ keysOf a
  · obtain ⟨v, hv⟩ := lookup_isSome_of_mem_keys hk
    obtain ⟨w, hw⟩ := lookup_isSome_of_mem_keys ((hkeys k).mp hk)
    obtain ⟨u1, hu1, hl1, he1⟩ := hrv k v hv
    obtain ⟨u2, hu2, hl2, he2⟩ := hsv k w hw
    have hvw : v.length = w.length := hshape k v w hv hw
    have hu12 : u1 = u2 := by
      refine eq_of_entryAt_eq u1 u2 (by rw [hl1, hl2, hvw]) ?_
      intro j hj
      have hjv : j < v.length := hl1 ▸ hj
      have hjw : j < w.length := hvw ▸ hjv
      rw [he1 j hjv, he2 j hjw]
      have hsums : sumAt [a, b] k j = sumAt [b, a] k j := by
        simp only [sumAt, List.map_cons, List.map_nil, List.sum_cons, List.sum_nil]
        ring
      rw [hsums]
      norm_num
    rw [hu1, hu2, hu12]
  · have hkb : k ∉ keysOf b := fun h => hk ((hkeys k).mpr h)
    have h1 : lookup r k = none := (lookup_eq_none_iff r k).mpr (by rw [hrk]; exact hk)
    have h2 : lookup s k = none := (lookup_eq_none_iff s k).mpr (by rw [hsk]; exact hkb)
    rw [h1, h2]

/-- Witness for C6 at the spec's two-node weights. -/
theorem average_weights_comm_witness :
    ∃ r s, average_weights [[(("w1" : String), [(1 : ℚ), 2])], [(("w1" : String), [(3 : ℚ), 4])]] = some r ∧
      average_weights [[(("w1" : String), [(3 : ℚ), 4])], [(("w1" : String), [(1 : ℚ), 2])]] = some s ∧
      ∀ k, lookup r k = lookup s k := by
  refine average_weights_comm [(("w1" : String), [(1 : ℚ), 2])] [(("w1" : String), [(3 : ℚ), 4])]
    (by decide) (by decide) (fun k => Iff.rfl) ?_
  intro k v w h1 h2
  rw [lookup_singleton] at h1 h2
  by_cases hk : ("w1" : String) = k
  · rw [if_pos hk] at h1 h2
    rw [← Option.some.inj h1, ← Option.some.inj h2]
    rfl
  · rw [if_neg hk] at h1
    cases h1

/-- C3: evaluating the code on mismatched key sets: `average_weights`
performs no precondition check and silently returns an aggregate keyed by
the first set, ignoring the second set's extra key `"extra"` instead of
failing. -/
theorem average_weights_mismatch_silent :
    average_weights
        [[(("w1" : String), [(1 : ℚ), 2])],
         [(("w1" : String), [(3 : ℚ), 4]), (("extra" : String), [(5 : ℚ)])]] =
      some [(("w1" : String), [(2 : ℚ), 3])] := by
  norm_num [average_weights, mapO, avgEntry, sumKey, lookup, addVec, List.find?]

/-! ### The result's key set is entirely determined by the first input -/

theorem avgEntry_fst {rest : List ParameterSet} {n : ℕ}
    {kv b : String × List ℚ} (h : avgEntry rest n kv = some b) : b.1 = kv.1 := by
  unfold avgEntry at h
  cases hs : sumKey rest kv.1 kv.2 with
  | none => rw [hs] at h; cases h
  | some s =>
    rw [hs] at h
    exact (Option.some.inj h).symm ▸ rfl

theorem mapO_keys {rest : List ParameterSet} {n : ℕ} :
    ∀ (first : ParameterSet) (r : ParameterSet),
      mapO (avgEntry rest n) first = some r → keysOf r = keysOf first := by
  intro first
  induction first with
  | nil =>
    intro r h
    cases (Option.some.inj h)
    rfl
  | cons kv t ih =>
    intro r h
    cases hb : avgEntry rest n kv with
    | none => simp [mapO, hb] at h
    | some b =>
      cases hbs : mapO (avgEntry rest n) t with
      | none => simp [mapO, hb, hbs] at h
      | some bs =>
        simp only [mapO, hb, hbs] at h
        cases (Option.some.inj h)
        have hkeys := ih bs hbs
        simp only [keysOf, List.map_cons] at hkeys ⊢
        rw [avgEntry_fst hb, hkeys]

theorem sumKey_none_of_missing {k : String} {s : ParameterSet} :
    ∀ (rest : List ParameterSet) (acc : List ℚ), s ∈ rest → lookup s k = none →
      sumKey rest k acc = none := by
  intro rest
  induction rest with
  | nil => intro acc h; cases h
  | cons t ss ih =>
    intro acc hm hnone
    rcases List.mem_cons.mp hm with heq | hmem
    · subst heq
      simp [sumKey, hnone]
    · cases hl : lookup t k with
      | none => simp [sumKey, hl]
      | some w =>
        cases ha : addVec acc w with
        | none => simp [sumKey, hl, ha]
        | some acc2 => simp [sumKey, hl, ha, ih acc2 hmem hnone]

/-- C10: `average_weights` determines the result's key set solely from the
first input: on success the result has exactly the first set's keys (so a
key present only in a later set is silently ignored), while a key of the
first set missing from some later set makes the whole call fail. -/
theorem average_weights_first_key_bias :
    (∀ (first : ParameterSet) (rest : List ParameterSet) (r : ParameterSet),
        average_weights (first :: rest) = some r →
          keysOf r = keysOf first ∧ ∀ k, k ∉ keysOf first → lookup r k = none) ∧
    (∀ (first : ParameterSet) (rest : List ParameterSet) (k : String) (v : List ℚ)
        (s : ParameterSet), (k, v) ∈ first → s ∈ rest → lookup s k = none →
        average_weights (first :: rest) = none) := by
  constructor
  · intro first rest r h
    have hk : keysOf r = keysOf first := mapO_keys first r h
    exact ⟨hk, fun k hkm => (lookup_eq_none_iff r k).mpr (by rw [hk]; exact hkm)⟩
  · intro first rest k v s hm hs hnone
    have hent : avgEntry rest (first :: rest).length (k, v) = none := by
      simp [avgEntry, sumKey_none_of_missing rest v hs hnone]
    simpa [average_weights] using
      mapO_eq_none (avgEntry rest (first :: rest).length) first hm hent

/-- Witness for C10: with first set `{"w1": [1, 2]}`, a second set with the
extra key `"extra"` is silently ignored (result keyed only by `"w1"`),
while a second set missing `"w1"` makes the call fail. -/
theorem average_weights_first_key_bias_witness :
    (keysOf [(("w1" : String), [(2 : ℚ), 3])] = keysOf [(("w1" : String), [(1 : ℚ), 2])] ∧
      lookup [(("w1" : String), [(2 : ℚ), 3])] "extra" = none) ∧
    average_weights [[(("w1" : String), [(1 : ℚ), 2])], [(("other" : String), [(3 : ℚ), 4])]] = none := by
  constructor
  · have h := average_weights_first_key_bias.1
      [(("w1" : String), [(1 : ℚ), 2])]
      [[(("w1" : String), [(3 : ℚ), 4]), (("extra" : String), [(5 : ℚ)])]]
      [(("w1" : String), [(2 : ℚ), 3])]
      (by norm_num [average_weights, mapO, avgEntry, sumKey, lookup, addVec, List.find?])
    exact ⟨h.1, h.2 "extra" (by decide)⟩
  · exact average_weights_first_key_bias.2
      [(("w1" : String), [(1 : ℚ), 2])]
      [[(("other" : String), [(3 : ℚ), 4])]]
      "w1" [(1 : ℚ), 2] [(("other" : String), [(3 : ℚ), 4])]
      (by decide) (by decide) (by decide)

/-! ### WireCodec

`send_weights` serialises with `pickle.dumps` and `handle_client`
deserialises with `pickle.loads`.  The token-level model below captures
pickle's contract for this data: a self-inverse serialisation of the dict
that preserves key order, string keys and exact numeric values, consumes
the whole encoding, fails on truncated input, and ignores trailing bytes
(as `pickle.loads` stops at the end of one object). -/

/-- Serialisation of one integer: a sign token followed by the magnitude. -/
def encodeInt (i : ℤ) : List ℕ := [if i < 0 then 1 else 0, i.natAbs]

/-- Serialisation of one exact numeric value (numerator and denominator). -/
def encodeRat (q : ℚ) : List ℕ := encodeInt q.num ++ [q.den]

/-- Serialisation of one array: length-prefixed element encodings. -/
def encodeVec (v : List ℚ) : List ℕ := v.length :: v.flatMap encodeRat

/-- Serialisation of one dict entry: length-prefixed key characters, then
the value array. -/
def encodeEntry (kv : String × List ℚ) : List ℕ :=
  (kv.1.toList.length :: kv.1.toList.map Char.toNat) ++ encodeVec kv.2

/-- Model of `pickle.dumps` on a ParameterSet: the entry count followed by
the entries in dict order. -/
def pickle_dumps (p : ParameterSet) : List ℕ := p.length :: p.flatMap encodeEntry

def decodeChars : ℕ → List ℕ → Option (List Char × List ℕ)
  | 0, ts => some ([], ts)
  | _ + 1, [] => none
  | n + 1, t :: ts =>
    match decodeChars n ts with
    | none => none
    | some (cs, r) => some (Char.ofNat t :: cs, r)

def decodeString (ts : List ℕ) : Option (String × List ℕ) :=
  match ts with
  | [] => none
  | n :: ts' =>
    match decodeChars n ts' with
    | none => none
    | some (cs, r) => some (String.mk cs, r)

def decodeRat (ts : List ℕ) : Option (ℚ × List ℕ) :=
  match ts with
  | s :: a :: d :: ts' =>
    some (((if s = 1 then -(a : ℤ) else (a : ℤ)) : ℚ) / (d : ℚ), ts')
  | _ => none

def decodeRats : ℕ → List ℕ → Option (List ℚ × List ℕ)
  | 0, ts => some ([], ts)
  | n + 1, ts =>
    match decodeRat ts with
    | none => none
    | some (q, r) =>
      match decodeRats n r with
      | none => none
      | some (qs, r2) => some (q :: qs, r2)

def decodeVec (ts : List ℕ) : Option (List ℚ × List ℕ) :=
  match ts with
  | [] => none
  | n :: ts' => decodeRats n ts'

def decodeEntry (ts : List ℕ) : Option ((String × List ℚ) × List ℕ) :=
  match decodeString ts with
  | none => none
  | some (s, r1) =>
    match decodeVec r1 with
    | none => none
    | some (v, r2) => some ((s, v), r2)

def decodeEntries : ℕ → List ℕ → Option (ParameterSet × List ℕ)
  | 0, ts => some ([], ts)
  | n + 1, ts =>
    match decodeEntry ts with
    | none => none
    | some (kv, r) =>
      match decodeEntries n r with
      | none => none
      | some (p, r2) => some (kv :: p, r2)

/-- Model of `pickle.loads`: read the entry count, decode that many
entries, ignore any trailing bytes; `none` models `UnpicklingError` on
truncated or malformed input. -/
def pickle_loads (ts : List ℕ) : Option ParameterSet :=
  match ts with
  | [] => none
  | n :: ts' =>
    match decodeEntries n ts' with
    | none => none
    | some (p, _) => some p

/-! ### Codec round trip -/

theorem decodeChars_encode (cs : List Char) :
    ∀ ts, decodeChars cs.length (cs.map Char.toNat ++ ts) = some (cs, ts) := by
  induction cs with
  | nil => intro ts; rfl
  | cons c t ih =>
    intro ts
    simp only [List.length_cons, List.map_cons, List.cons_append, decodeChars,
      List.append_eq, ih ts, Char.ofNat_toNat]

theorem decodeString_encode (s : String) (ts : List ℕ) :
    decodeString ((s.toList.length :: s.toList.map Char.toNat) ++ ts) = some (s, ts) := by
  simp only [List.cons_append, decodeString, decodeChars_encode s.toList ts]
  rfl

theorem decodeRat_encode (q : ℚ) (ts : List ℕ) :
    decodeRat (encodeRat q ++ ts) = some (q, ts) := by
  simp only [encodeRat, encodeInt, List.cons_append, List.append_assoc, List.nil_append,
    decodeRat]
  by_cases h : q.num < 0
  · have h1 : (if q.num < 0 then 1 else 0) = 1 := if_pos h
    rw [h1]
    simp only [if_pos rfl]
    rw [Int.ofNat_natAbs_of_nonpos (le_of_lt h)]
    simp [Rat.num_div_den]
  · have h1 : (if q.num < 0 then (1 : ℕ) else 0) = 0 := if_neg h
    rw [h1]
    have h2 : ((0 : ℕ) = 1) = False := by simp
    simp only [h2, if_false]
    rw [Int.natAbs_of_nonneg (not_lt.mp h)]
    simp [Rat.num_div_den]

theorem decodeRats_encode (v : List ℚ) :
    ∀ ts, decodeRats v.length (v.flatMap encodeRat ++ ts) = some (v, ts) := by
  induction v with
  | nil => intro ts; rfl
  | cons q t ih =>
    intro ts
    simp only [List.length_cons, List.flatMap_cons, List.append_assoc, decodeRats,
      decodeRat_encode q (t.flatMap encodeRat ++ ts), ih ts]

theorem decodeVec_encode (v : List ℚ) (ts : List ℕ) :
    decodeVec (encodeVec v ++ ts) = some (v, ts) := by
  simp only [encodeVec, List.cons_append, decodeVec, decodeRats_encode v ts]

theorem decodeEntry_encode (kv : String × List ℚ) (ts : List ℕ) :
    decodeEntry (encodeEntry kv ++ ts) = some (kv, ts) := by
  simp only [encodeEntry, List.append_assoc, decodeEntry,
    decodeString_encode kv.1 (encodeVec kv.2 ++ ts), decodeVec_encode kv.2 ts]

theorem decodeEntries_encode (p : ParameterSet) :
    ∀ ts, decodeEntries p.length (p.flatMap encodeEntry ++ ts) = some (p, ts) := by
  induction p with
  | nil => intro ts; rfl
  | cons kv t ih =>
    intro ts
    simp only [List.length_cons, List.flatMap_cons, List.append_assoc, decodeEntries,
      decodeEntry_encode kv (t.flatMap encodeEntry ++ ts), ih ts]

/-- C1: codec round trip: decoding the bytes produced by encoding a
ParameterSet yields the same ParameterSet — same keys, same order, same
shapes, same exact values. -/
theorem pickle_roundtrip (p : ParameterSet) :
    pickle_loads (pickle_dumps p) = some p := by
  have h := decodeEntries_encode p []
  rw [List.append_nil] at h
  simp only [pickle_dumps, pickle_loads, h]

/-! ### PeerTransport: what actually goes on the wire -/

/-- The bytes `send_weights` writes on the wire: `s.sendall(pickle.dumps(weights))`,
the raw pickled payload with no framing header of any kind. -/
def send_weights_bytes (p : ParameterSet) : List ℕ := pickle_dumps p

/-- Modelled from the spec: the frame of section 6 — a 4-byte big-endian
length header followed by exactly that many payload bytes.  This framing
is absent from the source. -/
def be4 (n : ℕ) : List ℕ := [n / 256 ^ 3 % 256, n / 256 ^ 2 % 256, n / 256 % 256, n % 256]

/-- Modelled from the spec: a complete frame for a given payload. -/
def frameOf (payload : List ℕ) : List ℕ := be4 payload.length ++ payload

/-- Whether a byte stream starts with a 4-byte big-endian header whose
value equals the number of remaining bytes, i.e. forms one complete
self-delimiting frame. -/
def isFramed (bs : List ℕ) : Bool :=
  match bs with
  | b0 :: b1 :: b2 :: b3 :: rest =>
    (((b0 * 256 + b1) * 256 + b2) * 256 + b3) == rest.length
  | _ => false

/-- C4: evaluating the code at `{"w1": [1, 2]}`: the bytes `send_weights`
puts on the wire carry no 4-byte big-endian length header — they are not
a frame, and differ from the frame the spec requires for this payload.
The receiver can only delimit the message by connection close. -/
theorem send_weights_unframed :
    isFramed (send_weights_bytes [(("w1" : String), [(1 : ℚ), 2])]) = false ∧
    send_weights_bytes [(("w1" : String), [(1 : ℚ), 2])] ≠
      frameOf (pickle_dumps [(("w1" : String), [(1 : ℚ), 2])]) := by
  decide

/-! ### PeerServer receive path -/

/-- One inbound connection's byte stream: the chunks that successive
`conn.recv(4096)` calls return.  The peer closing the connection makes
`recv` return an empty chunk, which ends the loop. -/
abbrev Conn := List (List ℕ)

/-- The receive loop of `handle_client`: accumulate chunks until an empty
`recv`.  Connection close is the only end-of-message signal the code has. -/
def recvAll (conn : Conn) : List ℕ :=
  (conn.takeWhile (fun pk => !pk.isEmpty)).flatten

/-- Trace of `handle_client` on one connection: the list of `callback`
invocations, paired with whether the handler closed the connection.  The
code never calls `conn.close()`; when `pickle.loads` raises, the
exception leaves the handler thread uncaught and no callback runs. -/
def handle_client (conn : Conn) : List ParameterSet × Bool :=
  match pickle_loads (recvAll conn) with
  | some w => ([w], false)
  | none => ([], false)

/-- The outcome of handling one connection, distinguishing the error kind
the code can actually produce. -/
inductive RecvOutcome
  | delivered (w : ParameterSet)
  | decodeFailed
deriving DecidableEq

/-- Outcome view of `handle_client`: a short transmission is only noticed
(if at all) when `pickle.loads` fails; the code cannot report a
connection-closed condition, because close is its normal end of message. -/
def handle_outcome (conn : Conn) : RecvOutcome :=
  match pickle_loads (recvAll conn) with
  | some w => RecvOutcome.delivered w
  | none => RecvOutcome.decodeFailed

/-- The accept loop hands each accepted connection to its own handler;
one connection's outcome never affects how later connections are handled. -/
def server_run (conns : List Conn) : List RecvOutcome :=
  conns.map handle_outcome

/-- Helper: the codec round trip, shared by several results. -/
theorem pickle_loads_dumps (p : ParameterSet) :
    pickle_loads (pickle_dumps p) = some p := by
  have h := decodeEntries_encode p []
  rw [List.append_nil] at h
  simp only [pickle_dumps, pickle_loads, h]

/-- C5: evaluating the code on a truncated transmission (the first 5 of
the 11 wire bytes of `{"w1": [1, 2]}`, then close): the handler fails in
`pickle.loads` — a decode failure, not a ConnectionClosed transport error
— and a subsequent well-formed connection is still handled normally. -/
theorem truncated_transmission_behavior :
    handle_outcome [(pickle_dumps [(("w1" : String), [(1 : ℚ), 2])]).take 5] =
      RecvOutcome.decodeFailed ∧
    server_run [[(pickle_dumps [(("w1" : String), [(1 : ℚ), 2])]).take 5],
        [pickle_dumps [(("w1" : String), [(1 : ℚ), 2])]]] =
      [RecvOutcome.decodeFailed,
       RecvOutcome.delivered [(("w1" : String), [(1 : ℚ), 2])]] := by
  have hb : pickle_dumps [(("w1" : String), [(1 : ℚ), 2])] =
      [1, 2, 119, 49, 2, 0, 1, 1, 0, 2, 1] := by decide
  have htr : handle_outcome [(pickle_dumps [(("w1" : String), [(1 : ℚ), 2])]).take 5] =
      RecvOutcome.decodeFailed := by
    rw [hb]
    rfl
  have hrecv : recvAll [pickle_dumps [(("w1" : String), [(1 : ℚ), 2])]] =
      pickle_dumps [(("w1" : String), [(1 : ℚ), 2])] := by
    rw [hb]
    rfl
  have hok : handle_outcome [pickle_dumps [(("w1" : String), [(1 : ℚ), 2])]] =
      RecvOutcome.delivered [(("w1" : String), [(1 : ℚ), 2])] := by
    rw [handle_outcome, hrecv, pickle_loads_dumps]
  exact ⟨htr, by simp [server_run, htr, hok]⟩

/-- C9 counterexample: on a connection delivering one complete pickled
ParameterSet, the handler never closes the connection, so the claim
"invokes the callback exactly once, then closes the connection" is false
at this input. -/
theorem handle_client_close_refuted :
    ¬ ((handle_client [pickle_dumps [(("w1" : String), [(1 : ℚ), 2])]]).1.length = 1 ∧
       (handle_client [pickle_dumps [(("w1" : String), [(1 : ℚ), 2])]]).2 = true) := by
  intro hc
  have h2 := hc.2
  cases h : pickle_loads (recvAll [pickle_dumps [(("w1" : String), [(1 : ℚ), 2])]]) with
  | none => rw [handle_client, h] at h2; cases h2
  | some w => rw [handle_client, h] at h2; cases h2

/-- C9 (amended): on every connection whose accumulated stream decodes
successfully, `handle_client` invokes the callback exactly once with the
decoded ParameterSet, but does not close the connection. -/
theorem handle_client_once_no_close (conn : Conn) (w : ParameterSet)
    (h : pickle_loads (recvAll conn) = some w) :
    (handle_client conn).1 = [w] ∧ (handle_client conn).2 = false := by
  rw [handle_client, h]
  exact ⟨rfl, rfl⟩

/-- Witness for the amended C9 at a connection carrying `{"w1": [1, 2]}`. -/
theorem handle_client_once_no_close_witness :
    (handle_client [pickle_dumps [(("w1" : String), [(1 : ℚ), 2])]]).1 =
      [[(("w1" : String), [(1 : ℚ), 2])]] ∧
    (handle_client [pickle_dumps [(("w1" : String), [(1 : ℚ), 2])]]).2 = false :=
  handle_client_once_no_close [pickle_dumps [(("w1" : String), [(1 : ℚ), 2])]]
    [(("w1" : String), [(1 : ℚ), 2])]
    (by
      have hb : pickle_dumps [(("w1" : String), [(1 : ℚ), 2])] =
          [1, 2, 119, 49, 2, 0, 1, 1, 0, 2, 1] := by decide
      have hrecv : recvAll [pickle_dumps [(("w1" : String), [(1 : ℚ), 2])]] =
          pickle_dumps [(("w1" : String), [(1 : ℚ), 2])] := by rw [hb]; rfl
      rw [hrecv, pickle_loads_dumps])

/-! ### Frame conditions: `average_weights` mutates only its private copy

The code updates tensors in place (`avg_weights[key] += ...`) after a
`copy.deepcopy` of the first input.  To state that no input is mutated
and that the result aliases no input, the store is modelled explicitly:
a heap of arrays, and parameter sets holding references (indices) into
it. -/

/-- A heap of arrays; a reference is an index into the heap. -/
abbrev Heap := List (List ℚ)

/-- A parameter set whose values are references into a heap. -/
abbrev RParameterSet := List (String × ℕ)

/-- Reference lookup by key (dict indexing on the reference level). -/
def lookupRef (p : RParameterSet) (k : String) : Option ℕ :=
  (p.find? (fun kv => kv.1 == k)).map (fun kv => kv.2)

/-- `copy.deepcopy(local_weights[0])`: allocate a fresh cell for each of
`p`'s values; the copy's references all point at the new cells. -/
def deepcopy (h : Heap) (p : RParameterSet) : Option (Heap × RParameterSet) :=
  match p with
  | [] => some (h, [])
  | (k, r) :: rest =>
    match h[r]? with
    | none => none
    | some v =>
      match deepcopy (h ++ [v]) rest with
      | none => none
      | some pr => some (pr.1, (k, h.length) :: pr.2)

/-- `avg_weights[key] += local_weights[i][key]`: elementwise addition of
the array at `src` into the cell at `dst`, in place; fails on a dangling
reference or shape mismatch. -/
def addIntoCell (h : Heap) (dst src : ℕ) : Option Heap :=
  match h[dst]?, h[src]? with
  | some a, some b =>
    if a.length = b.length then
      some (h.set dst (List.zipWith (fun x y => x + y) a b))
    else none
  | _, _ => none

/-- The inner loop over the remaining sets for one key, accumulating into
the copy's cell `dst`. -/
def sumKeyCell (h : Heap) (rest : List RParameterSet) (k : String) (dst : ℕ) :
    Option Heap :=
  match rest with
  | [] => some h
  | s :: ss =>
    match lookupRef s k with
    | none => none
    | some src =>
      match addIntoCell h dst src with
      | none => none
      | some h2 => sumKeyCell h2 ss k dst

/-- `avg_weights[key] = torch.div(avg_weights[key], n)`, in place. -/
def divCell (h : Heap) (dst : ℕ) (n : ℕ) : Option Heap :=
  match h[dst]? with
  | none => none
  | some a => some (h.set dst (a.map (fun x => x / (n : ℚ))))

/-- The per-key loop of `average_weights` over the copy's entries. -/
def processEntries (h : Heap) (rest : List RParameterSet) (n : ℕ) :
    List (String × ℕ) → Option Heap
  | [] => some h
  | (k, dst) :: es =>
    match sumKeyCell h rest k dst with
    | none => none
    | some h1 =>
      match divCell h1 dst n with
      | none => none
      | some h2 => processEntries h2 rest n es

/-- Store-level embedding of `average_weights`: deep-copy the first set,
then mutate only the copy's cells, and return the copy. -/
def average_weights_st (h : Heap) (lw : List RParameterSet) :
    Option (Heap × RParameterSet) :=
  match lw with
  | [] => none
  | first :: rest =>
    match deepcopy h first with
    | none => none
    | some pr =>
      match processEntries pr.1 rest (first :: rest).length pr.2 with
      | none => none
      | some h2 => some (h2, pr.2)

/-! ### Heap lemmas -/

theorem deepcopy_spec :
    ∀ (p : RParameterSet) (h h1 : Heap) (copy : RParameterSet),
      deepcopy h p = some (h1, copy) →
      h.length ≤ h1.length ∧
      (∀ i, i < h.length → h1[i]? = h[i]?) ∧
      (∀ kr ∈ copy, h.length ≤ kr.2 ∧ kr.2 < h1.length) := by
  intro p
  induction p with
  | nil =>
    intro h h1 copy heq
    cases Option.some.inj heq
    exact ⟨Nat.le_refl _, fun i _ => rfl, fun kr hm => absurd hm (List.not_mem_nil kr)⟩
  | cons kr0 rest ih =>
    intro h h1 copy heq
    obtain ⟨k, r⟩ := kr0
    rw [deepcopy] at heq
    split at heq
    · cases heq
    · rename_i v hv
      split at heq
      · cases heq
      · rename_i pr hd
        cases Option.some.inj heq
        obtain ⟨hlen, hpre, hfresh⟩ := ih (h ++ [v]) pr.1 pr.2 hd
        have happ : (h ++ [v]).length = h.length + 1 := by simp
        have hlen2 : h.length ≤ pr.1.length := by omega
        refine ⟨hlen2, ?_, ?_⟩
        · intro i hi
          rw [hpre i (by omega)]
          exact List.getElem?_append_left hi
        · intro kr hm
          rcases List.mem_cons.mp hm with heq2 | hmem
          · subst heq2
            exact ⟨Nat.le_refl _, by omega⟩
          · obtain ⟨h1le, h2lt⟩ := hfresh kr hmem
            exact ⟨by omega, h2lt⟩

theorem addIntoCell_frame {h h2 : Heap} {dst src : ℕ}
    (heq : addIntoCell h dst src = some h2) :
    h2.length = h.length ∧ ∀ i, i ≠ dst → h2[i]? = h[i]? := by
  rw [addIntoCell.eq_def] at heq
  split at heq
  · rename_i a b ha hb
    split at heq
    · cases Option.some.inj heq
      exact ⟨List.length_set h dst _, fun i hi => List.getElem?_set_ne hi.symm⟩
    · cases heq
  · cases heq

theorem sumKeyCell_frame {k : String} {dst : ℕ} :
    ∀ (rest : List RParameterSet) (h h2 : Heap),
      sumKeyCell h rest k dst = some h2 →
      h2.length = h.length ∧ ∀ i, i ≠ dst → h2[i]? = h[i]? := by
  intro rest
  induction rest with
  | nil =>
    intro h h2 heq
    cases Option.some.inj heq
    exact ⟨rfl, fun i _ => rfl⟩
  | cons s ss ih =>
    intro h h2 heq
    rw [sumKeyCell] at heq
    split at heq
    · cases heq
    · rename_i src hl
      split at heq
      · cases heq
      · rename_i hmid ha
        obtain ⟨hlen1, hfr1⟩ := addIntoCell_frame ha
        obtain ⟨hlen2, hfr2⟩ := ih hmid h2 heq
        exact ⟨by rw [hlen2, hlen1], fun i hi => by rw [hfr2 i hi, hfr1 i hi]⟩

theorem divCell_frame {h h2 : Heap} {dst n : ℕ}
    (heq : divCell h dst n = some h2) :
    h2.length = h.length ∧ ∀ i, i ≠ dst → h2[i]? = h[i]? := by
  rw [divCell.eq_def] at heq
  split at heq
  · cases heq
  · cases Option.some.inj heq
    exact ⟨List.length_set h dst _, fun i hi => List.getElem?_set_ne hi.symm⟩

theorem processEntries_frame {rest : List RParameterSet} {n : ℕ} {N : ℕ} :
    ∀ (entries : List (String × ℕ)) (h h2 : Heap),
      (∀ e ∈ entries, N ≤ e.2) →
      processEntries h rest n entries = some h2 →
      h2.length = h.length ∧ ∀ i, i < N → h2[i]? = h[i]? := by
  intro entries
  induction entries with
  | nil =>
    intro h h2 _ heq
    cases Option.some.inj heq
    exact ⟨rfl, fun i _ => rfl⟩
  | cons e es ih =>
    intro h h2 hN heq
    obtain ⟨k, dst⟩ := e
    rw [processEntries] at heq
    split at heq
    · cases heq
    · rename_i hmid hs
      split at heq
      · cases heq
      · rename_i hmid2 hd
        obtain ⟨hl1, hf1⟩ := sumKeyCell_frame rest h hmid hs
        obtain ⟨hl2, hf2⟩ := divCell_frame hd
        obtain ⟨hl3, hf3⟩ := ih hmid2 h2 (fun e he => hN e (List.mem_cons_of_mem _ he)) heq
        have hdstN : N ≤ dst := hN (k, dst) (List.mem_cons_self _ _)
        refine ⟨by rw [hl3, hl2, hl1], ?_⟩
        intro i hi
        have hne : i ≠ dst := by omega
        rw [hf3 i hi, hf2 i hne, hf1 i hne]

/-- C8: `average_weights` never mutates its inputs and its result aliases
none of them: on the store level, every cell referenced by any input
holds, after the call, exactly the value it held before, and every
reference in the result is a cell freshly allocated by the deep copy,
distinct from every input reference. -/
theorem average_weights_no_mutation (h : Heap) (lw : List RParameterSet)
    (h2 : Heap) (res : RParameterSet)
    (hvalid : ∀ s ∈ lw, ∀ kr ∈ s, kr.2 < h.length)
    (heq : average_weights_st h lw = some (h2, res)) :
    (∀ s ∈ lw, ∀ kr ∈ s, h2[kr.2]? = h[kr.2]?) ∧
    (∀ kr ∈ res, ∀ s ∈ lw, ∀ kr2 ∈ s, kr.2 ≠ kr2.2) := by
  match lw, heq with
  | first :: rest, heq => ?_
  rw [average_weights_st] at heq
  split at heq
  · cases heq
  · rename_i pr hd
    split at heq
    · cases heq
    · rename_i h3 hp
      cases Option.some.inj heq
      obtain ⟨hdlen, hdpre, hdfresh⟩ := deepcopy_spec first h pr.1 pr.2 hd
      obtain ⟨hplen, hppre⟩ := processEntries_frame pr.2 pr.1 h2
        (fun e he => (hdfresh e he).1) hp
      constructor
      · intro s hs kr hkr
        have hlt : kr.2 < h.length := hvalid s hs kr hkr
        rw [hppre kr.2 hlt, hdpre kr.2 hlt]
      · intro kr hkr s hs kr2 hkr2
        have h1le : h.length ≤ kr.2 := (hdfresh kr hkr).1
        have h2lt : kr2.2 < h.length := hvalid s hs kr2 hkr2
        omega

/-- Witness for C8: two one-key inputs referencing heap cells 0 and 1;
after the call both original cells are untouched and the result refers
only to the fresh cell. -/
theorem average_weights_no_mutation_witness :
    (∀ s ∈ [[(("w1" : String), 0)], [(("w1" : String), 1)]], ∀ kr ∈ s,
      ([[(1 : ℚ), 2], [(3 : ℚ), 4], [(2 : ℚ), 3]] : Heap)[kr.2]? =
      ([[(1 : ℚ), 2], [(3 : ℚ), 4]] : Heap)[kr.2]?) ∧
    (∀ kr ∈ [(("w1" : String), 2)], ∀ s ∈ [[(("w1" : String), 0)], [(("w1" : String), 1)]],
      ∀ kr2 ∈ s, kr.2 ≠ kr2.2) :=
  average_weights_no_mutation [[(1 : ℚ), 2], [(3 : ℚ), 4]]
    [[(("w1" : String), 0)], [(("w1" : String), 1)]]
    [[(1 : ℚ), 2], [(3 : ℚ), 4], [(2 : ℚ), 3]]
    [(("w1" : String), 2)]
    (by decide)
    (by norm_num [average_weights_st, deepcopy, processEntries, sumKeyCell,
      addIntoCell, divCell, lookupRef, List.find?, List.set])

end P2P
